import Mathlib

/-!
Verification of the interactive tree-visualization component of the
TextResonanceAnalyzer repository (`src/static/js/tree-visualization.js`).

The component keeps a d3 hierarchy whose nodes carry a mutable pair of
child lists: `children` (visible / expanded) and `_children` (collapsed).
We embed that state shallowly: a node is a pure value holding its display
name, its (optionally assigned) stable integer id, its previously rendered
position `(x0, y0)`, and the two child lists.  In JavaScript each list is
either `null`/`undefined` or a non-empty array; `d3.hierarchy` never
produces an empty `children` array and the component only ever moves whole
lists, so `[]` faithfully stands for the absent list and a list is
"truthy" exactly when it is non-empty.

Payload fields that do not influence the hierarchy state machine
(`type`, `value`, `description`, `sentiment` — they drive only colors,
radii and tooltip text) are elided from the payload embedding.
-/

namespace TreeViz

/-- External payload (`TreeData` in the spec): `name` is `Option String`
so that a payload object lacking the `name` field can be distinguished
from one carrying a name; JavaScript truthiness of a string makes the
empty string behave like an absent name. -/
inductive TreeData where
  | mk (name : Option String) (children : List TreeData)

def TreeData.name : TreeData → Option String
  | .mk n _ => n

def TreeData.children : TreeData → List TreeData
  | .mk _ cs => cs

/-- JavaScript truthiness of `treeData.name`: `undefined`/missing and the
empty string are falsy, every other string is truthy. -/
def nameTruthy : Option String → Bool
  | none => false
  | some s => !s.isEmpty

/-- Internal hierarchy node: display name, the stable id (absent until the
first data join assigns it, `d.id || (d.id = ++this.nodeId)`), the stored
previous position `(x0, y0)`, the visible children (`children` in source)
and the collapsed children (`_children` in source). -/
inductive HNode where
  | mk (name : String) (id : Option Nat) (x0 y0 : Int) (vis hid : List HNode)

def HNode.name : HNode → String
  | .mk n _ _ _ _ _ => n

def HNode.id : HNode → Option Nat
  | .mk _ i _ _ _ _ => i

def HNode.x0 : HNode → Int
  | .mk _ _ a _ _ _ => a

def HNode.y0 : HNode → Int
  | .mk _ _ _ b _ _ => b

def HNode.vis : HNode → List HNode
  | .mk _ _ _ _ v _ => v

def HNode.hid : HNode → List HNode
  | .mk _ _ _ _ _ h => h

mutual
/-- `d3.hierarchy(treeData)`: depth-first conversion of the payload into
hierarchy nodes; all children start visible, `_children` unset, no id,
positions unset (0). -/
def hierarchy : TreeData → HNode
  | .mk n cs => .mk (n.getD "") none 0 0 (hierarchyList cs) []
def hierarchyList : List TreeData → List HNode
  | [] => []
  | t :: ts => hierarchy t :: hierarchyList ts
end

mutual
/-- `collapse(d)` (source lines 244-250): if `d.children` is truthy, move
it wholesale to `d._children` (overwriting any previous `_children`),
recursively collapse the moved children, and null out `d.children`;
otherwise do nothing. -/
def collapse : HNode → HNode
  | .mk n i a b vis hid =>
    if vis.isEmpty then .mk n i a b vis hid
    else .mk n i a b [] (collapseList vis)
def collapseList : List HNode → List HNode
  | [] => []
  | t :: ts => collapse t :: collapseList ts
end

/-- `toggleNode` (source lines 233-242): if `d.children` is truthy move it
to `d._children` and null `children`; else set `children := _children` and
null `_children`.  Not recursive: descendants keep their own state. -/
def toggleNode : HNode → HNode
  | .mk n i a b vis hid =>
    if vis.isEmpty then .mk n i a b hid []
    else .mk n i a b [] vis

mutual
/-- The `expand` closure inside `expandAll` (source lines 255-263): first,
if `_children` is truthy, restore it into `children` (overwriting) and
null `_children`; then recurse into the (possibly just restored) visible
children — top-down, so every collapsed level reopens. -/
def expand : HNode → HNode
  | .mk n i a b vis hid =>
    if hid.isEmpty then .mk n i a b (expandList vis) []
    else .mk n i a b (expandList hid) []
def expandList : List HNode → List HNode
  | [] => []
  | t :: ts => expand t :: expandList ts
end

/-- `collapseAll` (source lines 269-276): collapse every direct child of
the root (the root itself keeps its visible children). -/
def collapseAll : HNode → HNode
  | .mk n i a b vis hid => .mk n i a b (collapseList vis) hid

/-- The default collapse policy applied by `updateTree` (source lines
104-109): `this.root.children?.forEach(child => if (child.children)
this.collapse(child))` — every root child that itself has children is
recursively collapsed. -/
def defaultCollapse : HNode → HNode
  | .mk n i a b vis hid =>
    .mk n i a b (vis.map fun c => if c.vis.isEmpty then c else collapse c) hid

/-- `updateTree`'s root initialisation (source lines 100-102): after
`d3.hierarchy`, the root's previous position is seeded with
`root.x0 = height / 2; root.y0 = 0`. -/
def setRootPrevPos (h : Int) : HNode → HNode
  | .mk n i _ _ vis hid => .mk n i (h / 2) 0 vis hid

/-- The tree produced by a successful `updateTree(treeData)` call:
hierarchy conversion, previous-position seeding, default collapse. -/
def buildRoot (h : Int) (td : TreeData) : HNode :=
  defaultCollapse (setRootPrevPos h (hierarchy td))

/-- Visualization state relevant to the update/clear protocol: the current
root (`this.root`, `null` when cleared) and whether the empty-state
placeholder is displayed. -/
structure VizState where
  root : Option HNode
  emptyShown : Bool

/-- `clearTree` (source lines 325-331): show the empty state, wipe the
rendered content, set `this.root = null`. -/
def clearTree (_s : VizState) : VizState :=
  { root := none, emptyShown := true }

/-- `updateTree(treeData)` (source lines 91-113): a falsy payload or a
payload with a falsy `name` clears to the empty state; otherwise the
empty state is hidden and the hierarchy is rebuilt and default-collapsed.
The function is total: no input throws. -/
def updateTree (h : Int) (td : Option TreeData) (s : VizState) : VizState :=
  match td with
  | none => clearTree s
  | some t =>
    if nameTruthy t.name then
      { root := some (buildRoot h t), emptyShown := false }
    else clearTree s

/-! ### Observations on the hierarchy state -/

mutual
/-- The currently visible nodes: the nodes `tree(this.root).descendants()`
returns, i.e. the nodes reachable from the root through `children` links,
here in depth-first (pre-order) order.  (d3's `descendants()` enumerates
breadth-first; none of the verified properties depends on the enumeration
order, only on the underlying set.) -/
def visibleList : HNode → List HNode
  | .mk n i a b vis hid => .mk n i a b vis hid :: visibleListL vis
def visibleListL : List HNode → List HNode
  | [] => []
  | t :: ts => visibleList t ++ visibleListL ts
end

mutual
/-- Names of every node of the underlying payload reachable from this
node, whether currently visible or collapsed. -/
def underlyingNames : HNode → List String
  | .mk n _ _ _ vis hid => n :: (underlyingNamesL vis ++ underlyingNamesL hid)
def underlyingNamesL : List HNode → List String
  | [] => []
  | t :: ts => underlyingNames t ++ underlyingNamesL ts
end

/-- Names of the currently visible nodes. -/
def visibleNames (t : HNode) : List String :=
  (visibleList t).map HNode.name

mutual
/-- The mutual-exclusivity invariant: at every node of the underlying
tree, `children` and `_children` are never both truthy (at most one of
the two lists is non-empty). -/
def Inv : HNode → Bool
  | .mk _ _ _ _ vis hid => (vis.isEmpty || hid.isEmpty) && InvL vis && InvL hid
def InvL : List HNode → Bool
  | [] => true
  | t :: ts => Inv t && InvL ts
end

mutual
/-- Every node in this subtree has its children (if any) in `_children`:
nothing below this node is visible.  This is the state `collapse` leaves
a fully-visible subtree in. -/
def fullyCollapsed : HNode → Bool
  | .mk _ _ _ _ vis hid => vis.isEmpty && fullyCollapsedL hid
def fullyCollapsedL : List HNode → Bool
  | [] => true
  | t :: ts => fullyCollapsed t && fullyCollapsedL ts
end

mutual
/-- Every node in this subtree has its children (if any) in `children`:
no `_children` remains anywhere.  This is the state the payload is in
right after `d3.hierarchy`, and the state `expandAll` restores. -/
def allVisible : HNode → Bool
  | .mk _ _ _ _ vis hid => hid.isEmpty && allVisibleL vis
def allVisibleL : List HNode → Bool
  | [] => true
  | t :: ts => allVisible t && allVisibleL ts
end

/-- The payload of spec §8 scenario 7: a root with one entity-group child
that itself has one leaf child ("cat"). -/
def samplePayload : TreeData :=
  .mk (some "root") [.mk (some "E1") [.mk (some "cat") []]]

/-- Names of the visible nodes below a list of sibling subtrees. -/
def visibleNamesL (l : List HNode) : List String :=
  (visibleListL l).map HNode.name

mutual
/-- Apply `f` to the visible node reached by following `path` through
`children` links (the click handler can only ever fire on a rendered,
i.e. visible, node).  An out-of-range path leaves the tree unchanged. -/
def modifyAt (f : HNode → HNode) : List Nat → HNode → HNode
  | [], t => f t
  | i :: p, .mk n id a b vis hid => .mk n id a b (modifyAtL f i p vis) hid
  termination_by p _ => (p.length, 0)
def modifyAtL (f : HNode → HNode) : Nat → List Nat → List HNode → List HNode
  | _, _, [] => []
  | 0, p, c :: cs => modifyAt f p c :: cs
  | j + 1, p, c :: cs => c :: modifyAtL f j p cs
  termination_by _ p l => (p.length, l.length + 1)
end

/-- The operations the surrounding UI can fire on a built tree: a click
on a visible node (`toggleNode` via the click handler, source line 157),
an internal `collapse` of a node (exercised by Build and `collapseAll`),
the Expand All button (`expandAll`) and the Collapse All button
(`collapseAll`). -/
inductive Op where
  | toggleOp (path : List Nat)
  | collapseOp (path : List Nat)
  | expandAllOp
  | collapseAllOp

def applyOp (t : HNode) : Op → HNode
  | .toggleOp p => modifyAt toggleNode p t
  | .collapseOp p => modifyAt collapse p t
  | .expandAllOp => expand t
  | .collapseAllOp => collapseAll t

def applyOps (t : HNode) (ops : List Op) : HNode :=
  ops.foldl applyOp t

mutual
/-- The depth-axis assignment of `render` (source lines 124-126):
`nodes.forEach(d => { d.y = d.depth * 180 })` — every visible node's `y`
is its depth times the fixed 180-unit spacing; the viewport width does
not occur.  Returns each visible node's `(depth, y)` pair. -/
def layoutDepthY : HNode → Nat → List (Nat × Int)
  | .mk _ _ _ _ vis _, dep => (dep, (dep : Int) * 180) :: layoutDepthYL vis (dep + 1)
def layoutDepthYL : List HNode → Nat → List (Nat × Int)
  | [], _ => []
  | t :: ts, dep => layoutDepthY t dep ++ layoutDepthYL ts dep
end

mutual
/-- One identity-assigning pass of the data join (source lines 129-151):
for every visible node, `d.id || (d.id = ++this.nodeId)` — an already
assigned id is kept untouched, an unassigned node receives the
incremented counter.  The source evaluates this key function over the
link join (`descendants().slice(1)`) and then over the node join
(`descendants()`), in d3's breadth-first `descendants()` order; since an
assigned id is never overwritten, a single traversal of the visible
nodes assigning fresh counter values to the unassigned ones describes
the same pass — only which particular integer an unassigned node
receives (irrelevant to the properties below) depends on visit order. -/
def assignIds : Nat → HNode → HNode × Nat
  | c, .mk n i a b vis hid =>
    match i with
    | some k =>
      let r := assignIdsL c vis
      (.mk n (some k) a b r.1 hid, r.2)
    | none =>
      let r := assignIdsL (c + 1) vis
      (.mk n (some (c + 1)) a b r.1 hid, r.2)
def assignIdsL : Nat → List HNode → List HNode × Nat
  | c, [] => ([], c)
  | c, t :: ts =>
    let r := assignIds c t
    let r2 := assignIdsL r.2 ts
    (r.1 :: r2.1, r2.2)
end

mutual
/-- The ids currently assigned to visible nodes, in traversal order. -/
def visIds : HNode → List Nat
  | .mk _ i _ _ vis _ => (match i with | some k => [k] | none => []) ++ visIdsL vis
def visIdsL : List HNode → List Nat
  | [] => []
  | t :: ts => visIds t ++ visIdsL ts
end

mutual
/-- Every visible node carries an assigned id. -/
def allAssigned : HNode → Bool
  | .mk _ i _ _ vis _ => i.isSome && allAssignedL vis
def allAssignedL : List HNode → Bool
  | [] => true
  | t :: ts => allAssigned t && allAssignedL ts
end

/-- Per entering node of a reconciliation pass: the node's id, its
parent's stored previous position as the `(y0, x0)` pair that
`translate(...)` consumes (`none` for the root, which has no parent),
and the initial rendered position the source actually assigns. -/
structure EnterRecord where
  nodeId : Option Nat
  parentPrev : Option (Int × Int)
  initPos : Int × Int
deriving DecidableEq

mutual
/-- The entering selection of `render`'s node join (source lines
150-163): a visible node enters when its id is not among the previously
rendered ids, and its initial transform is
`translate(${this.root.y0},${this.root.x0})` — the root's stored
previous position, whatever the node's parent is. -/
def enteringNodes (rootPrev : Int × Int) (prev : List Nat) :
    HNode → Option (Int × Int) → List EnterRecord
  | .mk _ i a b vis _, pp =>
    (match i with
     | some k => if k ∈ prev then [] else [⟨some k, pp, rootPrev⟩]
     | none => [⟨none, pp, rootPrev⟩]) ++
    enteringNodesL rootPrev prev vis (some (b, a))
def enteringNodesL (rootPrev : Int × Int) (prev : List Nat) :
    List HNode → Option (Int × Int) → List EnterRecord
  | [], _ => []
  | t :: ts, pp =>
    enteringNodes rootPrev prev t pp ++ enteringNodesL rootPrev prev ts pp
end

/-- The entering records of one reconciliation pass against the set of
previously rendered ids, seeded with the root's previous position
(`this.root.y0`, `this.root.x0`). -/
def renderEntering (root : HNode) (prev : List Nat) : List EnterRecord :=
  enteringNodes (root.y0, root.x0) prev root none

/-- The initial entering position the spec's words prescribe (C5):
the parent's previous position when a parent exists, else the root's
previous position.  Kept separate from `enteringNodes` (which embeds the
source) so the two can be compared. -/
def specEnterInitPos (rootPrev : Int × Int) (parentPrev : Option (Int × Int)) :
    Int × Int :=
  match parentPrev with
  | some p => p
  | none => rootPrev

/-- The zoom scale clamp `scaleExtent([0.1, 3])` (source lines 20-21),
applied by d3 to user gestures. -/
def scaleExtentMin : ℚ := 1 / 10

/-- Upper end of the `scaleExtent([0.1, 3])` clamp. -/
def scaleExtentMax : ℚ := 3

/-- The fit-to-content scale `centerTree` derives (source line 287):
`0.9 / Math.max(fullWidth / this.width, fullHeight / this.height)`,
then applied directly through `zoom.transform` (which does not consult
`scaleExtent`) with no clamping anywhere. -/
def centerTreeScale (bw bh w h : ℚ) : ℚ :=
  (9 / 10) / max (bw / w) (bh / h)

/-! ### Basic lemmas about the operations -/

theorem HNode.name_mk (n : String) (i : Option Nat) (a b : Int) (v h : List HNode) :
    (HNode.mk n i a b v h).name = n := rfl

theorem HNode.id_mk (n : String) (i : Option Nat) (a b : Int) (v h : List HNode) :
    (HNode.mk n i a b v h).id = i := rfl

theorem HNode.vis_mk (n : String) (i : Option Nat) (a b : Int) (v h : List HNode) :
    (HNode.mk n i a b v h).vis = v := rfl

theorem HNode.hid_mk (n : String) (i : Option Nat) (a b : Int) (v h : List HNode) :
    (HNode.mk n i a b v h).hid = h := rfl

theorem collapse_name (t : HNode) : (collapse t).name = t.name := by
  cases t with
  | mk n i a b vis hid => unfold collapse; by_cases hv : vis.isEmpty <;> simp [hv, HNode.name]

theorem hierarchyList_map (cs : List TreeData) : hierarchyList cs = cs.map hierarchy := by
  induction cs with
  | nil => rfl
  | cons c cs ih => rw [hierarchyList, ih, List.map_cons]

theorem hierarchy_name (td : TreeData) : (hierarchy td).name = td.name.getD "" := by
  cases td with
  | mk n cs => rw [hierarchy]; rfl

mutual
theorem hierarchy_allVisible (td : TreeData) : allVisible (hierarchy td) = true := by
  cases td with
  | mk n cs =>
    rw [hierarchy, allVisible]
    simp [List.isEmpty, hierarchyList_allVisible cs]
theorem hierarchyList_allVisible (cs : List TreeData) : allVisibleL (hierarchyList cs) = true := by
  cases cs with
  | nil => rfl
  | cons c cs =>
    rw [hierarchyList, allVisibleL]
    simp [hierarchy_allVisible c, hierarchyList_allVisible cs]
end

mutual
theorem allVisible_collapse (t : HNode) (h : allVisible t = true) :
    fullyCollapsed (collapse t) = true := by
  cases t with
  | mk n i a b vis hid =>
    rw [allVisible] at h
    simp only [Bool.and_eq_true] at h
    unfold collapse
    by_cases hv : vis.isEmpty
    · rw [if_pos hv, fullyCollapsed]
      rw [List.isEmpty_iff.mp h.1]
      simp [hv, fullyCollapsedL]
    · rw [if_neg hv, fullyCollapsed]
      simp [List.isEmpty, allVisibleL_collapseList vis h.2]
theorem allVisibleL_collapseList (l : List HNode) (h : allVisibleL l = true) :
    fullyCollapsedL (collapseList l) = true := by
  cases l with
  | nil => rfl
  | cons t ts =>
    rw [allVisibleL] at h
    simp only [Bool.and_eq_true] at h
    rw [collapseList, fullyCollapsedL]
    simp [allVisible_collapse t h.1, allVisibleL_collapseList ts h.2]
end

theorem fullyCollapsed_vis_empty (t : HNode) (h : fullyCollapsed t = true) : t.vis = [] := by
  cases t with
  | mk n i a b vis hid =>
    rw [fullyCollapsed] at h
    simp only [Bool.and_eq_true] at h
    exact List.isEmpty_iff.mp h.1

theorem visibleList_of_vis_empty (t : HNode) (h : t.vis = []) : visibleList t = [t] := by
  cases t with
  | mk n i a b vis hid =>
    simp only [HNode.vis] at h
    subst h
    rw [visibleList, visibleListL]

theorem allVisibleL_mem (l : List HNode) (h : allVisibleL l = true) :
    ∀ t ∈ l, allVisible t = true := by
  induction l with
  | nil => simp
  | cons t ts ih =>
    rw [allVisibleL] at h
    simp only [Bool.and_eq_true] at h
    intro u hu
    rcases List.mem_cons.mp hu with rfl | hu
    · exact h.1
    · exact ih h.2 u hu

theorem visibleListL_of_all_vis_empty (l : List HNode) (h : ∀ t ∈ l, t.vis = []) :
    visibleListL l = l := by
  induction l with
  | nil => rfl
  | cons t ts ih =>
    rw [visibleListL, visibleList_of_vis_empty t (h t (by simp)),
      ih (fun u hu => h u (by simp [hu])), List.singleton_append]

theorem defaultCollapse_child_fullyCollapsed (c : HNode) (hc : allVisible c = true) :
    fullyCollapsed (if c.vis.isEmpty then c else collapse c) = true := by
  by_cases hv : c.vis.isEmpty
  · rw [if_pos hv]
    cases c with
    | mk n i a b vis hid =>
      rw [allVisible] at hc
      simp only [Bool.and_eq_true] at hc
      simp only [HNode.vis] at hv
      rw [fullyCollapsed, List.isEmpty_iff.mp hc.1]
      simp [hv, fullyCollapsedL]
  · rw [if_neg hv]
    exact allVisible_collapse c hc

theorem defaultCollapse_child_name (c : HNode) :
    (if c.vis.isEmpty then c else collapse c).name = c.name := by
  by_cases hv : c.vis.isEmpty
  · rw [if_pos hv]
  · rw [if_neg hv, collapse_name]

theorem buildRoot_eq (h : Int) (n : Option String) (cs : List TreeData) :
    buildRoot h (.mk n cs) =
      .mk (n.getD "") none (h / 2) 0
        ((hierarchyList cs).map fun c => if c.vis.isEmpty then c else collapse c) [] := by
  rw [buildRoot, hierarchy, setRootPrevPos, defaultCollapse]

/-! ### Toggle and expand lemmas -/

theorem toggleNode_vis_empty (n : String) (i : Option Nat) (a b : Int)
    (hid : List HNode) :
    toggleNode (.mk n i a b [] hid) = .mk n i a b hid [] := by
  rw [toggleNode]
  simp

theorem toggleNode_vis_nonempty (n : String) (i : Option Nat) (a b : Int)
    (vis hid : List HNode) (h : vis ≠ []) :
    toggleNode (.mk n i a b vis hid) = .mk n i a b [] vis := by
  rw [toggleNode]
  simp [h]

mutual
theorem expand_allVisible (t : HNode) : allVisible (expand t) = true := by
  cases t with
  | mk n i a b vis hid =>
    rw [expand]
    by_cases hh : hid.isEmpty
    · rw [if_pos hh, allVisible]
      simp [List.isEmpty, expandList_allVisible vis]
    · rw [if_neg hh, allVisible]
      simp [List.isEmpty, expandList_allVisible hid]
theorem expandList_allVisible (l : List HNode) : allVisibleL (expandList l) = true := by
  cases l with
  | nil => rfl
  | cons t ts =>
    rw [expandList, allVisibleL]
    simp [expand_allVisible t, expandList_allVisible ts]
end

theorem visibleNamesL_cons (t : HNode) (ts : List HNode) :
    visibleNamesL (t :: ts) = visibleNames t ++ visibleNamesL ts := by
  rw [visibleNamesL, visibleListL, List.map_append]
  rfl

mutual
theorem expand_visibleNames (t : HNode) (h : Inv t = true) :
    visibleNames (expand t) = underlyingNames t := by
  cases t with
  | mk n i a b vis hid =>
    rw [Inv] at h
    simp only [Bool.and_eq_true, Bool.or_eq_true] at h
    rw [expand, underlyingNames]
    by_cases hh : hid.isEmpty
    · rw [if_pos hh, List.isEmpty_iff.mp hh]
      rw [visibleNames, visibleList, List.map_cons]
      rw [show ((visibleListL (expandList vis)).map HNode.name) =
        visibleNamesL (expandList vis) from rfl]
      rw [expandList_visibleNames vis h.1.2, underlyingNamesL, List.append_nil]
      rfl
    · have hv : vis = [] := by
        rcases h.1.1 with hv | hv
        · exact List.isEmpty_iff.mp hv
        · exact absurd hv hh
      rw [if_neg hh, hv]
      rw [visibleNames, visibleList, List.map_cons]
      rw [show ((visibleListL (expandList hid)).map HNode.name) =
        visibleNamesL (expandList hid) from rfl]
      rw [expandList_visibleNames hid h.2, underlyingNamesL, List.nil_append]
      rfl
theorem expandList_visibleNames (l : List HNode) (h : InvL l = true) :
    visibleNamesL (expandList l) = underlyingNamesL l := by
  cases l with
  | nil => rfl
  | cons t ts =>
    rw [InvL] at h
    simp only [Bool.and_eq_true] at h
    rw [expandList, visibleNamesL_cons, underlyingNamesL,
      expand_visibleNames t h.1, expandList_visibleNames ts h.2]
end

/-! ### C2: toggling is an involution that only moves the node's own children -/

/-- C2: for a node satisfying the mutual-exclusivity invariant (which every
node of a built tree satisfies), toggling twice restores the node exactly
(same child identities, same order); a single toggle moves the child lists
wholesale, leaving every child subtree — hence every descendant's
expanded/collapsed state — untouched, and preserves the node's own
name and id; and toggling a leaf (both lists empty) is a no-op. -/
theorem toggleNode_involution (t : HNode) (hinv : t.vis = [] ∨ t.hid = []) :
    toggleNode (toggleNode t) = t ∧
    (toggleNode t).vis ++ (toggleNode t).hid = t.hid ++ t.vis ∧
    (toggleNode t).name = t.name ∧ (toggleNode t).id = t.id ∧
    (t.vis = [] ∧ t.hid = [] → toggleNode t = t) := by
  obtain ⟨n, i, a, b, vis, hid⟩ := t
  simp only [HNode.vis_mk, HNode.hid_mk] at hinv ⊢
  rcases hinv with rfl | rfl
  · by_cases hh : hid = []
    · subst hh
      rw [toggleNode_vis_empty]
      simp [HNode.vis_mk, HNode.hid_mk, HNode.name_mk, HNode.id_mk,
        toggleNode_vis_empty]
    · rw [toggleNode_vis_empty, toggleNode_vis_nonempty n i a b hid [] hh]
      simp [HNode.vis_mk, HNode.hid_mk, HNode.name_mk, HNode.id_mk]
  · by_cases hv : vis = []
    · subst hv
      rw [toggleNode_vis_empty]
      simp [HNode.vis_mk, HNode.hid_mk, HNode.name_mk, HNode.id_mk,
        toggleNode_vis_empty]
    · rw [toggleNode_vis_nonempty n i a b vis [] hv, toggleNode_vis_empty]
      simp [HNode.vis_mk, HNode.hid_mk, HNode.name_mk, HNode.id_mk, hv]

/-- Witness for C2 at a concrete expanded node with one child. -/
theorem toggleNode_involution_witness :
    ((HNode.mk "E1" none 0 0 [.mk "cat" none 0 0 [] []] []).vis = [] ∨
      (HNode.mk "E1" none 0 0 [.mk "cat" none 0 0 [] []] []).hid = []) ∧
    (toggleNode (toggleNode (.mk "E1" none 0 0 [.mk "cat" none 0 0 [] []] [])) =
        .mk "E1" none 0 0 [.mk "cat" none 0 0 [] []] [] ∧
      (toggleNode (.mk "E1" none 0 0 [.mk "cat" none 0 0 [] []] [])).vis ++
          (toggleNode (.mk "E1" none 0 0 [.mk "cat" none 0 0 [] []] [])).hid =
        (HNode.mk "E1" none 0 0 [.mk "cat" none 0 0 [] []] []).hid ++
          (HNode.mk "E1" none 0 0 [.mk "cat" none 0 0 [] []] []).vis ∧
      (toggleNode (.mk "E1" none 0 0 [.mk "cat" none 0 0 [] []] [])).name =
        (HNode.mk "E1" none 0 0 [.mk "cat" none 0 0 [] []] []).name ∧
      (toggleNode (.mk "E1" none 0 0 [.mk "cat" none 0 0 [] []] [])).id =
        (HNode.mk "E1" none 0 0 [.mk "cat" none 0 0 [] []] []).id ∧
      ((HNode.mk "E1" none 0 0 [.mk "cat" none 0 0 [] []] []).vis = [] ∧
          (HNode.mk "E1" none 0 0 [.mk "cat" none 0 0 [] []] []).hid = [] →
        toggleNode (.mk "E1" none 0 0 [.mk "cat" none 0 0 [] []] []) =
          .mk "E1" none 0 0 [.mk "cat" none 0 0 [] []] [])) :=
  ⟨Or.inr rfl, toggleNode_involution _ (Or.inr rfl)⟩

/-! ### C3: expandAll makes every underlying node visible -/

/-- C3: for every tree satisfying the mutual-exclusivity invariant (every
built tree does, see the C4 theorem), after `expandAll` no
`_children` remains anywhere (`allVisible`), and the visible node names
are exactly the names of all nodes reachable in the underlying payload. -/
theorem expandAll_total (t : HNode) (h : Inv t = true) :
    allVisible (expand t) = true ∧
    visibleNames (expand t) = underlyingNames t :=
  ⟨expand_allVisible t, expand_visibleNames t h⟩

/-- Witness for C3 at the built sample payload. -/
theorem expandAll_total_witness :
    Inv (buildRoot 500 samplePayload) = true ∧
    (allVisible (expand (buildRoot 500 samplePayload)) = true ∧
      visibleNames (expand (buildRoot 500 samplePayload)) =
        underlyingNames (buildRoot 500 samplePayload)) :=
  ⟨rfl, expandAll_total _ rfl⟩

/-! ### Invariant preservation (C4) -/

theorem collapseList_isEmpty (l : List HNode) :
    (collapseList l).isEmpty = l.isEmpty := by
  cases l with
  | nil => rfl
  | cons t ts => rw [collapseList]; rfl

mutual
theorem Inv_collapse (t : HNode) (h : Inv t = true) : Inv (collapse t) = true := by
  cases t with
  | mk n i a b vis hid =>
    rw [Inv] at h
    simp only [Bool.and_eq_true, Bool.or_eq_true] at h
    rw [collapse]
    by_cases hv : vis.isEmpty
    · rw [if_pos hv, Inv]
      simp [hv, h.1.2, h.2]
    · rw [if_neg hv, Inv]
      simp [InvL, Inv_collapseList vis h.1.2]
theorem Inv_collapseList (l : List HNode) (h : InvL l = true) :
    InvL (collapseList l) = true := by
  cases l with
  | nil => rfl
  | cons t ts =>
    rw [InvL] at h
    simp only [Bool.and_eq_true] at h
    rw [collapseList, InvL]
    simp [Inv_collapse t h.1, Inv_collapseList ts h.2]
end

theorem Inv_toggleNode (t : HNode) (h : Inv t = true) : Inv (toggleNode t) = true := by
  cases t with
  | mk n i a b vis hid =>
    rw [Inv] at h
    simp only [Bool.and_eq_true, Bool.or_eq_true] at h
    rw [toggleNode]
    by_cases hv : vis.isEmpty
    · rw [if_pos hv, Inv]
      simp [h.1.2, h.2, InvL]
    · rw [if_neg hv, Inv]
      simp [h.1.2, h.2, InvL]

mutual
theorem Inv_expand (t : HNode) (h : Inv t = true) : Inv (expand t) = true := by
  cases t with
  | mk n i a b vis hid =>
    rw [Inv] at h
    simp only [Bool.and_eq_true, Bool.or_eq_true] at h
    rw [expand]
    by_cases hh : hid.isEmpty
    · rw [if_pos hh, Inv]
      simp [InvL, Inv_expandList vis h.1.2]
    · rw [if_neg hh, Inv]
      simp [InvL, Inv_expandList hid h.2]
theorem Inv_expandList (l : List HNode) (h : InvL l = true) :
    InvL (expandList l) = true := by
  cases l with
  | nil => rfl
  | cons t ts =>
    rw [InvL] at h
    simp only [Bool.and_eq_true] at h
    rw [expandList, InvL]
    simp [Inv_expand t h.1, Inv_expandList ts h.2]
end

theorem Inv_collapseAll (t : HNode) (h : Inv t = true) : Inv (collapseAll t) = true := by
  cases t with
  | mk n i a b vis hid =>
    rw [Inv] at h
    simp only [Bool.and_eq_true, Bool.or_eq_true] at h
    rw [collapseAll, Inv]
    simp only [Bool.and_eq_true, Bool.or_eq_true, collapseList_isEmpty]
    exact ⟨⟨h.1.1, Inv_collapseList vis h.1.2⟩, h.2⟩

theorem modifyAtL_isZero (f : HNode → HNode) (j : Nat) (p : List Nat)
    (l : List HNode) : (modifyAtL f j p l).isEmpty = l.isEmpty := by
  cases l with
  | nil => simp [modifyAtL]
  | cons c cs => cases j <;> simp [modifyAtL]

mutual
theorem Inv_modifyAt (f : HNode → HNode)
    (hf : ∀ u, Inv u = true → Inv (f u) = true)
    (p : List Nat) (t : HNode) (h : Inv t = true) :
    Inv (modifyAt f p t) = true := by
  cases p with
  | nil => rw [modifyAt]; exact hf t h
  | cons i p =>
    cases t with
    | mk n id a b vis hid =>
      rw [Inv] at h
      simp only [Bool.and_eq_true, Bool.or_eq_true] at h
      rw [modifyAt, Inv]
      simp only [Bool.and_eq_true, Bool.or_eq_true, modifyAtL_isZero]
      exact ⟨⟨h.1.1, Inv_modifyAtL f hf i p vis h.1.2⟩, h.2⟩
  termination_by (p.length, 0)
theorem Inv_modifyAtL (f : HNode → HNode)
    (hf : ∀ u, Inv u = true → Inv (f u) = true)
    (j : Nat) (p : List Nat) (l : List HNode) (h : InvL l = true) :
    InvL (modifyAtL f j p l) = true := by
  cases l with
  | nil => rw [modifyAtL]; rfl
  | cons c cs =>
    rw [InvL] at h
    simp only [Bool.and_eq_true] at h
    cases j with
    | zero =>
      rw [modifyAtL, InvL]
      simp [Inv_modifyAt f hf p c h.1, h.2]
    | succ j =>
      rw [modifyAtL, InvL]
      simp [h.1, Inv_modifyAtL f hf j p cs h.2]
  termination_by (p.length, l.length + 1)
end

mutual
theorem names_collapse (t : HNode) (h : Inv t = true) :
    underlyingNames (collapse t) = underlyingNames t := by
  cases t with
  | mk n i a b vis hid =>
    rw [Inv] at h
    simp only [Bool.and_eq_true, Bool.or_eq_true] at h
    rw [collapse]
    by_cases hv : vis.isEmpty
    · rw [if_pos hv]
    · have hh : hid = [] := by
        rcases h.1.1 with hv2 | hh
        · exact absurd hv2 hv
        · exact List.isEmpty_iff.mp hh
      subst hh
      rw [if_neg hv, underlyingNames, underlyingNames,
        names_collapseList vis h.1.2]
      simp [underlyingNamesL]
theorem names_collapseList (l : List HNode) (h : InvL l = true) :
    underlyingNamesL (collapseList l) = underlyingNamesL l := by
  cases l with
  | nil => rfl
  | cons t ts =>
    rw [InvL] at h
    simp only [Bool.and_eq_true] at h
    rw [collapseList, underlyingNamesL, underlyingNamesL,
      names_collapse t h.1, names_collapseList ts h.2]
end

theorem names_toggleNode (t : HNode) (h : Inv t = true) :
    underlyingNames (toggleNode t) = underlyingNames t := by
  cases t with
  | mk n i a b vis hid =>
    rw [Inv] at h
    simp only [Bool.and_eq_true, Bool.or_eq_true] at h
    rw [toggleNode]
    by_cases hv : vis.isEmpty
    · rw [if_pos hv, List.isEmpty_iff.mp hv, underlyingNames, underlyingNames]
      simp [underlyingNamesL]
    · have hh : hid = [] := by
        rcases h.1.1 with hv2 | hh
        · exact absurd hv2 hv
        · exact List.isEmpty_iff.mp hh
      subst hh
      rw [if_neg hv, underlyingNames, underlyingNames]
      simp [underlyingNamesL]

mutual
theorem names_expand (t : HNode) (h : Inv t = true) :
    underlyingNames (expand t) = underlyingNames t := by
  cases t with
  | mk n i a b vis hid =>
    rw [Inv] at h
    simp only [Bool.and_eq_true, Bool.or_eq_true] at h
    rw [expand]
    by_cases hh : hid.isEmpty
    · rw [if_pos hh, List.isEmpty_iff.mp hh, underlyingNames, underlyingNames,
        names_expandList vis h.1.2]
    · have hv : vis = [] := by
        rcases h.1.1 with hv | hh2
        · exact List.isEmpty_iff.mp hv
        · exact absurd hh2 hh
      subst hv
      rw [if_neg hh, underlyingNames, underlyingNames, names_expandList hid h.2]
      simp [underlyingNamesL]
theorem names_expandList (l : List HNode) (h : InvL l = true) :
    underlyingNamesL (expandList l) = underlyingNamesL l := by
  cases l with
  | nil => rfl
  | cons t ts =>
    rw [InvL] at h
    simp only [Bool.and_eq_true] at h
    rw [expandList, underlyingNamesL, underlyingNamesL,
      names_expand t h.1, names_expandList ts h.2]
end

theorem names_collapseAll (t : HNode) (h : Inv t = true) :
    underlyingNames (collapseAll t) = underlyingNames t := by
  cases t with
  | mk n i a b vis hid =>
    rw [Inv] at h
    simp only [Bool.and_eq_true, Bool.or_eq_true] at h
    rw [collapseAll, underlyingNames, underlyingNames,
      names_collapseList vis h.1.2]

mutual
theorem names_modifyAt (f : HNode → HNode)
    (hfn : ∀ u, Inv u = true → underlyingNames (f u) = underlyingNames u)
    (p : List Nat) (t : HNode) (h : Inv t = true) :
    underlyingNames (modifyAt f p t) = underlyingNames t := by
  cases p with
  | nil => rw [modifyAt]; exact hfn t h
  | cons i p =>
    cases t with
    | mk n id a b vis hid =>
      rw [Inv] at h
      simp only [Bool.and_eq_true, Bool.or_eq_true] at h
      rw [modifyAt, underlyingNames, underlyingNames,
        names_modifyAtL f hfn i p vis h.1.2]
  termination_by (p.length, 0)
theorem names_modifyAtL (f : HNode → HNode)
    (hfn : ∀ u, Inv u = true → underlyingNames (f u) = underlyingNames u)
    (j : Nat) (p : List Nat) (l : List HNode) (h : InvL l = true) :
    underlyingNamesL (modifyAtL f j p l) = underlyingNamesL l := by
  cases l with
  | nil => rw [modifyAtL]
  | cons c cs =>
    rw [InvL] at h
    simp only [Bool.and_eq_true] at h
    cases j with
    | zero =>
      rw [modifyAtL, underlyingNamesL, underlyingNamesL,
        names_modifyAt f hfn p c h.1]
    | succ j =>
      rw [modifyAtL, underlyingNamesL, underlyingNamesL,
        names_modifyAtL f hfn j p cs h.2]
  termination_by (p.length, l.length + 1)
end

mutual
theorem Inv_of_allVisible (t : HNode) (h : allVisible t = true) : Inv t = true := by
  cases t with
  | mk n i a b vis hid =>
    rw [allVisible] at h
    simp only [Bool.and_eq_true] at h
    rw [Inv]
    simp [h.1, InvL_of_allVisibleL vis h.2, List.isEmpty_iff.mp h.1, InvL]
theorem InvL_of_allVisibleL (l : List HNode) (h : allVisibleL l = true) :
    InvL l = true := by
  cases l with
  | nil => rfl
  | cons t ts =>
    rw [allVisibleL] at h
    simp only [Bool.and_eq_true] at h
    rw [InvL]
    simp [Inv_of_allVisible t h.1, InvL_of_allVisibleL ts h.2]
end

theorem Inv_buildRoot (h : Int) (td : TreeData) : Inv (buildRoot h td) = true := by
  obtain ⟨n, cs⟩ := td
  rw [buildRoot_eq, Inv]
  simp only [Bool.and_eq_true, Bool.or_eq_true]
  refine ⟨⟨Or.inr rfl, ?_⟩, rfl⟩
  have hall : ∀ c ∈ hierarchyList cs, Inv c = true := fun c hc =>
    Inv_of_allVisible c (allVisibleL_mem _ (hierarchyList_allVisible cs) c hc)
  have : ∀ l : List HNode, (∀ c ∈ l, Inv c = true) →
      InvL (l.map fun c => if c.vis.isEmpty then c else collapse c) = true := by
    intro l
    induction l with
    | nil => intro _; rfl
    | cons c cs ih =>
      intro hl
      rw [List.map_cons, InvL]
      have hc : Inv (if c.vis.isEmpty then c else collapse c) = true := by
        by_cases hv : c.vis.isEmpty
        · rw [if_pos hv]; exact hl c (by simp)
        · rw [if_neg hv]; exact Inv_collapse c (hl c (by simp))
      simp [hc, ih (fun u hu => hl u (by simp [hu]))]
  exact this _ hall

theorem Inv_applyOp (t : HNode) (o : Op) (h : Inv t = true) :
    Inv (applyOp t o) = true := by
  cases o with
  | toggleOp p => exact Inv_modifyAt toggleNode Inv_toggleNode p t h
  | collapseOp p => exact Inv_modifyAt collapse Inv_collapse p t h
  | expandAllOp => exact Inv_expand t h
  | collapseAllOp => exact Inv_collapseAll t h

theorem names_applyOp (t : HNode) (o : Op) (h : Inv t = true) :
    underlyingNames (applyOp t o) = underlyingNames t := by
  cases o with
  | toggleOp p => exact names_modifyAt toggleNode names_toggleNode p t h
  | collapseOp p => exact names_modifyAt collapse names_collapse p t h
  | expandAllOp => exact names_expand t h
  | collapseAllOp => exact names_collapseAll t h

theorem applyOps_spec (t : HNode) (ops : List Op) (h : Inv t = true) :
    Inv (applyOps t ops) = true ∧
    underlyingNames (applyOps t ops) = underlyingNames t := by
  induction ops generalizing t with
  | nil => exact ⟨h, rfl⟩
  | cons o ops ih =>
    rw [applyOps, List.foldl_cons]
    have h1 := Inv_applyOp t o h
    have := ih (applyOp t o) h1
    rw [applyOps] at this
    exact ⟨this.1, this.2.trans (names_applyOp t o h)⟩

/-! ### C4: the mutual-exclusivity invariant holds after Build and every
operation sequence -/

/-- C4: in the embedding a node's underlying children are exactly
`vis ++ hid`, so "both lists empty" just says the node is a true leaf;
the checkable content of the claim is that after Build and after every
sequence of user operations (toggle/collapse at any visible node,
expand-all, collapse-all), no node ever has both lists non-empty — at
most (hence, for a node with underlying children, exactly) one of
{`children`, `_children`} is populated — and no underlying child is ever
lost (the full payload name sequence is preserved). -/
theorem invariant_after_ops (h : Int) (td : TreeData) (ops : List Op) :
    Inv (buildRoot h td) = true ∧
    Inv (applyOps (buildRoot h td) ops) = true ∧
    underlyingNames (applyOps (buildRoot h td) ops) =
      underlyingNames (buildRoot h td) :=
  ⟨Inv_buildRoot h td,
    (applyOps_spec _ ops (Inv_buildRoot h td)).1,
    (applyOps_spec _ ops (Inv_buildRoot h td)).2⟩

/-! ### Layout (C8) -/

mutual
theorem layoutDepthY_spec (t : HNode) (dep : Nat) (r : Nat × Int)
    (hr : r ∈ layoutDepthY t dep) : r.2 = (r.1 : Int) * 180 := by
  cases t with
  | mk n i a b vis hid =>
    rw [layoutDepthY] at hr
    rcases List.mem_cons.mp hr with rfl | hr
    · rfl
    · exact layoutDepthYL_spec vis (dep + 1) r hr
theorem layoutDepthYL_spec (l : List HNode) (dep : Nat) (r : Nat × Int)
    (hr : r ∈ layoutDepthYL l dep) : r.2 = (r.1 : Int) * 180 := by
  cases l with
  | nil =>
    rw [layoutDepthYL] at hr
    exact absurd hr (List.not_mem_nil r)
  | cons t ts =>
    rw [layoutDepthYL] at hr
    rcases List.mem_append.mp hr with hr | hr
    · exact layoutDepthY_spec t dep r hr
    · exact layoutDepthYL_spec ts dep r hr
end

/-! ### C8: depth-proportional depth-axis coordinate -/

/-- C8: every visible node's depth-axis coordinate is its depth times the
fixed 180-unit spacing — the viewport width is not even an argument of
the assignment — and hence a visible node of strictly smaller depth has
a strictly smaller depth-axis coordinate. -/
theorem layout_depth_spacing (t : HNode) (p q : Nat × Int)
    (hp : p ∈ layoutDepthY t 0) (hq : q ∈ layoutDepthY t 0) (hpq : p.1 < q.1) :
    p.2 = (p.1 : Int) * 180 ∧ q.2 = (q.1 : Int) * 180 ∧ p.2 < q.2 := by
  have h1 := layoutDepthY_spec t 0 p hp
  have h2 := layoutDepthY_spec t 0 q hq
  refine ⟨h1, h2, ?_⟩
  rw [h1, h2]
  have hcast : (p.1 : Int) < (q.1 : Int) := by exact_mod_cast hpq
  omega

/-- Witness for C8 on the built sample payload, whose visible layout
rows are exactly `(0, 0)` (the root) and `(1, 180)` (its child). -/
theorem layout_depth_spacing_witness :
    (((0, 0) : Nat × Int) ∈ layoutDepthY (buildRoot 500 samplePayload) 0 ∧
      ((1, 180) : Nat × Int) ∈ layoutDepthY (buildRoot 500 samplePayload) 0 ∧
      (((0, 0) : Nat × Int)).1 < (((1, 180) : Nat × Int)).1) ∧
    ((((0, 0) : Nat × Int)).2 = ((((0, 0) : Nat × Int)).1 : Int) * 180 ∧
      (((1, 180) : Nat × Int)).2 = ((((1, 180) : Nat × Int)).1 : Int) * 180 ∧
      (((0, 0) : Nat × Int)).2 < (((1, 180) : Nat × Int)).2) :=
  ⟨⟨by decide, by decide, by decide⟩,
    layout_depth_spacing (buildRoot 500 samplePayload) (0, 0) (1, 180)
      (by decide) (by decide) (by decide)⟩

/-! ### Identity assignment (C7) -/

mutual
theorem allAssigned_assignIds (c : Nat) (t : HNode) :
    allAssigned (assignIds c t).1 = true := by
  cases t with
  | mk n i a b vis hid =>
    cases i with
    | some k =>
      rw [assignIds, allAssigned]
      simp [allAssignedL_assignIdsL c vis]
    | none =>
      rw [assignIds, allAssigned]
      simp [allAssignedL_assignIdsL (c + 1) vis]
theorem allAssignedL_assignIdsL (c : Nat) (l : List HNode) :
    allAssignedL (assignIdsL c l).1 = true := by
  cases l with
  | nil => rfl
  | cons t ts =>
    rw [assignIdsL, allAssignedL]
    simp [allAssigned_assignIds c t, allAssignedL_assignIdsL (assignIds c t).2 ts]
end

mutual
theorem assignIds_of_allAssigned (c : Nat) (t : HNode) (h : allAssigned t = true) :
    assignIds c t = (t, c) := by
  cases t with
  | mk n i a b vis hid =>
    rw [allAssigned] at h
    simp only [Bool.and_eq_true] at h
    cases i with
    | some k =>
      rw [assignIds]
      simp [assignIdsL_of_allAssignedL c vis h.2]
    | none => simp [Option.isSome] at h
theorem assignIdsL_of_allAssignedL (c : Nat) (l : List HNode)
    (h : allAssignedL l = true) : assignIdsL c l = (l, c) := by
  cases l with
  | nil => rfl
  | cons t ts =>
    rw [allAssignedL] at h
    simp only [Bool.and_eq_true] at h
    rw [assignIdsL]
    simp [assignIds_of_allAssigned c t h.1, assignIdsL_of_allAssignedL c ts h.2]
end

theorem assignIds_some (c : Nat) (n : String) (k : Nat) (a b : Int)
    (vis hid : List HNode) :
    assignIds c (.mk n (some k) a b vis hid) =
      (.mk n (some k) a b (assignIdsL c vis).1 hid, (assignIdsL c vis).2) := by
  rw [assignIds]

theorem assignIds_noneId (c : Nat) (n : String) (a b : Int)
    (vis hid : List HNode) :
    assignIds c (.mk n none a b vis hid) =
      (.mk n (some (c + 1)) a b (assignIdsL (c + 1) vis).1 hid,
        (assignIdsL (c + 1) vis).2) := by
  rw [assignIds]

theorem assignIdsL_cons (c : Nat) (t : HNode) (ts : List HNode) :
    assignIdsL c (t :: ts) =
      ((assignIds c t).1 :: (assignIdsL (assignIds c t).2 ts).1,
        (assignIdsL (assignIds c t).2 ts).2) := by
  rw [assignIdsL]

theorem visIds_some (n : String) (k : Nat) (a b : Int) (vis hid : List HNode) :
    visIds (.mk n (some k) a b vis hid) = k :: visIdsL vis := by
  rw [visIds]
  rfl

theorem visIds_noneId (n : String) (a b : Int) (vis hid : List HNode) :
    visIds (.mk n none a b vis hid) = visIdsL vis := by
  rw [visIds]
  rfl

mutual
theorem assignIds_ids (c : Nat) (t : HNode)
    (hb : ∀ i ∈ visIds t, i ≤ c) (hn : (visIds t).Nodup) :
    c ≤ (assignIds c t).2 ∧
    (∀ i ∈ visIds (assignIds c t).1,
      i ≤ (assignIds c t).2 ∧ (i ∈ visIds t ∨ c < i)) ∧
    (∀ i ∈ visIds t, i ∈ visIds (assignIds c t).1) ∧
    (visIds (assignIds c t).1).Nodup := by
  cases t with
  | mk n i a b vis hid =>
    cases i with
    | some k =>
      rw [visIds_some] at hb hn
      have hbv : ∀ i ∈ visIdsL vis, i ≤ c := fun i hi => hb i (by simp [hi])
      have hk : k ≤ c := hb k (by simp)
      rw [List.nodup_cons] at hn
      obtain ⟨hkn, hnv⟩ := hn
      obtain ⟨hA, hB, hC, hD⟩ := assignIdsL_ids c vis hbv hnv
      rw [assignIds_some, visIds_some]
      refine ⟨hA, ?_, ?_, ?_⟩
      · intro i hi
        rcases List.mem_cons.mp hi with rfl | hi
        · exact ⟨le_trans hk hA, Or.inl (by simp [visIds_some])⟩
        · obtain ⟨h1, h2⟩ := hB i hi
          refine ⟨h1, ?_⟩
          rcases h2 with h2 | h2
          · exact Or.inl (by simp [visIds_some, h2])
          · exact Or.inr h2
      · intro i hi
        rw [visIds_some] at hi
        rcases List.mem_cons.mp hi with rfl | hi
        · exact List.mem_cons_self _ _
        · exact List.mem_cons_of_mem _ (hC i hi)
      · rw [List.nodup_cons]
        refine ⟨?_, hD⟩
        intro hkmem
        rcases (hB k hkmem).2 with h2 | h2
        · exact hkn h2
        · omega
    | none =>
      rw [visIds_noneId] at hb hn
      have hbv : ∀ i ∈ visIdsL vis, i ≤ c + 1 := fun i hi =>
        le_trans (hb i hi) (Nat.le_succ c)
      obtain ⟨hA, hB, hC, hD⟩ := assignIdsL_ids (c + 1) vis hbv hn
      rw [assignIds_noneId, visIds_some]
      refine ⟨le_trans (Nat.le_succ c) hA, ?_, ?_, ?_⟩
      · intro i hi
        rcases List.mem_cons.mp hi with rfl | hi
        · exact ⟨hA, Or.inr (Nat.lt_succ_self c)⟩
        · obtain ⟨h1, h2⟩ := hB i hi
          refine ⟨h1, ?_⟩
          rcases h2 with h2 | h2
          · exact Or.inl (by rw [visIds_noneId]; exact h2)
          · exact Or.inr (by omega)
      · intro i hi
        rw [visIds_noneId] at hi
        exact List.mem_cons_of_mem _ (hC i hi)
      · rw [List.nodup_cons]
        refine ⟨?_, hD⟩
        intro hmem
        rcases (hB (c + 1) hmem).2 with h2 | h2
        · exact absurd (hb (c + 1) h2) (by omega)
        · omega
theorem assignIdsL_ids (c : Nat) (l : List HNode)
    (hb : ∀ i ∈ visIdsL l, i ≤ c) (hn : (visIdsL l).Nodup) :
    c ≤ (assignIdsL c l).2 ∧
    (∀ i ∈ visIdsL (assignIdsL c l).1,
      i ≤ (assignIdsL c l).2 ∧ (i ∈ visIdsL l ∨ c < i)) ∧
    (∀ i ∈ visIdsL l, i ∈ visIdsL (assignIdsL c l).1) ∧
    (visIdsL (assignIdsL c l).1).Nodup := by
  cases l with
  | nil =>
    rw [assignIdsL]
    exact ⟨le_refl c, by simp [visIdsL], by simp [visIdsL], by simp [visIdsL]⟩
  | cons t ts =>
    rw [visIdsL] at hb hn
    have hbt : ∀ i ∈ visIds t, i ≤ c := fun i hi => hb i (List.mem_append_left _ hi)
    have hbts : ∀ i ∈ visIdsL ts, i ≤ c := fun i hi => hb i (List.mem_append_right _ hi)
    rw [List.nodup_append] at hn
    obtain ⟨hnt, hnts, hdisj⟩ := hn
    obtain ⟨hA1, hB1, hC1, hD1⟩ := assignIds_ids c t hbt hnt
    have hbts2 : ∀ i ∈ visIdsL ts, i ≤ (assignIds c t).2 := fun i hi =>
      le_trans (hbts i hi) hA1
    obtain ⟨hA2, hB2, hC2, hD2⟩ := assignIdsL_ids (assignIds c t).2 ts hbts2 hnts
    rw [assignIdsL_cons, visIdsL]
    refine ⟨le_trans hA1 hA2, ?_, ?_, ?_⟩
    · intro i hi
      rcases List.mem_append.mp hi with hi | hi
      · obtain ⟨h1, h2⟩ := hB1 i hi
        refine ⟨le_trans h1 hA2, ?_⟩
        rcases h2 with h2 | h2
        · exact Or.inl (by rw [visIdsL]; exact List.mem_append_left _ h2)
        · exact Or.inr h2
      · obtain ⟨h1, h2⟩ := hB2 i hi
        refine ⟨h1, ?_⟩
        rcases h2 with h2 | h2
        · exact Or.inl (by rw [visIdsL]; exact List.mem_append_right _ h2)
        · exact Or.inr (lt_of_le_of_lt hA1 h2)
    · intro i hi
      rw [visIdsL] at hi
      rcases List.mem_append.mp hi with hi | hi
      · exact List.mem_append_left _ (hC1 i hi)
      · exact List.mem_append_right _ (hC2 i hi)
    · rw [List.nodup_append]
      refine ⟨hD1, hD2, ?_⟩
      intro x hx1 hx2
      rcases (hB1 x hx1).2 with hx1o | hx1f
      · rcases (hB2 x hx2).2 with hx2o | hx2f
        · exact hdisj hx1o hx2o
        · exact absurd (hbt x hx1o) (by omega)
      · rcases (hB2 x hx2).2 with hx2o | hx2f
        · exact absurd (hbts x hx2o) (by omega)
        · exact absurd (hB1 x hx1).1 (by omega)
end

/-! ### C7: id stability across reconciliation passes -/

/-- C7: starting from a tree whose assigned visible ids are duplicate-free
and bounded by the counter (a freshly built tree has no ids at all), one
render pass assigns an id to every visible node; a second pass with no
structural change returns the identical tree — every node keeps the
identical id — and consumes no counter value; the counter never
decreases, every previously assigned id survives a pass unchanged, every
id after a pass is either an old id or a fresh value strictly above the
old counter (so no id is ever reused within the same tree, even for a
node that was collapsed away and re-enters later), and the visible ids
stay pairwise distinct. -/
theorem render_id_stability (t : HNode) (c c2 : Nat)
    (hb : ∀ i ∈ visIds t, i ≤ c) (hn : (visIds t).Nodup) :
    assignIds c2 (assignIds c t).1 = ((assignIds c t).1, c2) ∧
    allAssigned (assignIds c t).1 = true ∧
    c ≤ (assignIds c t).2 ∧
    (∀ i ∈ visIds t, i ∈ visIds (assignIds c t).1) ∧
    (∀ i ∈ visIds (assignIds c t).1,
      i ≤ (assignIds c t).2 ∧ (i ∈ visIds t ∨ c < i)) ∧
    (visIds (assignIds c t).1).Nodup := by
  obtain ⟨hA, hB, hC, hD⟩ := assignIds_ids c t hb hn
  exact ⟨assignIds_of_allAssigned c2 _ (allAssigned_assignIds c t),
    allAssigned_assignIds c t, hA, hC, hB, hD⟩

/-- Witness for C7 on the freshly built sample payload (no ids assigned,
counter 0; second pass run with counter 7). -/
theorem render_id_stability_witness :
    ((∀ i ∈ visIds (buildRoot 500 samplePayload), i ≤ 0) ∧
      (visIds (buildRoot 500 samplePayload)).Nodup) ∧
    (assignIds 7 (assignIds 0 (buildRoot 500 samplePayload)).1 =
        ((assignIds 0 (buildRoot 500 samplePayload)).1, 7) ∧
      allAssigned (assignIds 0 (buildRoot 500 samplePayload)).1 = true ∧
      0 ≤ (assignIds 0 (buildRoot 500 samplePayload)).2 ∧
      (∀ i ∈ visIds (buildRoot 500 samplePayload),
        i ∈ visIds (assignIds 0 (buildRoot 500 samplePayload)).1) ∧
      (∀ i ∈ visIds (assignIds 0 (buildRoot 500 samplePayload)).1,
        i ≤ (assignIds 0 (buildRoot 500 samplePayload)).2 ∧
          (i ∈ visIds (buildRoot 500 samplePayload) ∨ 0 < i)) ∧
      (visIds (assignIds 0 (buildRoot 500 samplePayload)).1).Nodup) :=
  ⟨⟨by decide, by decide⟩,
    render_id_stability (buildRoot 500 samplePayload) 0 7 (by decide) (by decide)⟩

/-! ### Entering-node initial position (C5) -/

mutual
theorem enteringNodes_initPos (rootPrev : Int × Int) (prev : List Nat)
    (t : HNode) (pp : Option (Int × Int)) (e : EnterRecord)
    (he : e ∈ enteringNodes rootPrev prev t pp) : e.initPos = rootPrev := by
  cases t with
  | mk n i a b vis hid =>
    cases i with
    | some k =>
      rw [enteringNodes] at he
      rcases List.mem_append.mp he with he | he
      · by_cases hk : k ∈ prev
        · rw [if_pos hk] at he
          exact absurd he (List.not_mem_nil e)
        · rw [if_neg hk, List.mem_singleton] at he
          subst he
          rfl
      · exact enteringNodesL_initPos rootPrev prev vis (some (b, a)) e he
    | none =>
      rw [enteringNodes] at he
      rcases List.mem_append.mp he with he | he
      · rw [List.mem_singleton] at he
        subst he
        rfl
      · exact enteringNodesL_initPos rootPrev prev vis (some (b, a)) e he
theorem enteringNodesL_initPos (rootPrev : Int × Int) (prev : List Nat)
    (l : List HNode) (pp : Option (Int × Int)) (e : EnterRecord)
    (he : e ∈ enteringNodesL rootPrev prev l pp) : e.initPos = rootPrev := by
  cases l with
  | nil =>
    rw [enteringNodesL] at he
    exact absurd he (List.not_mem_nil e)
  | cons t ts =>
    rw [enteringNodesL] at he
    rcases List.mem_append.mp he with he | he
    · exact enteringNodes_initPos rootPrev prev t pp e he
    · exact enteringNodesL_initPos rootPrev prev ts pp e he
end

/-! ### C5: corrected — entering nodes start at the root's previous
position, not their parent's -/

/-- Counterexample to C5 as stated: in the tree
root (id 1, previous position `(y0, x0) = (0, 5)`)
→ B (id 2, previous position `(180, 7)`) → E (id 3), with root and B
previously rendered (prev ids `[1, 2]`), node E is entering and has
parent B; the claim predicts initial position `(180, 7)` (B's previous
position, via `specEnterInitPos`), but the source renders E at the
root's previous position `(0, 5)`. -/
theorem entering_position_counterexample :
    (⟨some 3, some (180, 7), (0, 5)⟩ : EnterRecord) ∈
      renderEntering
        (.mk "root" (some 1) 5 0
          [.mk "B" (some 2) 7 180 [.mk "E" (some 3) 9 360 [] []] []] [])
        [1, 2] ∧
    ((0, 5) : Int × Int) ≠ specEnterInitPos (0, 5) (some (180, 7)) :=
  ⟨by decide, by decide⟩

/-- C5 amended: every entering node's initial rendered position is the
root's stored previous position `(this.root.y0, this.root.x0)` —
`translate(${this.root.y0},${this.root.x0})` — regardless of whether the
node has a parent and of the parent's previous position; the spec's
parent-based rule holds only for nodes whose parent's previous position
coincides with the root's. -/
theorem entering_position_root (root : HNode) (prev : List Nat)
    (e : EnterRecord) (he : e ∈ renderEntering root prev) :
    e.initPos = (root.y0, root.x0) :=
  enteringNodes_initPos (root.y0, root.x0) prev root none e he

/-- Witness for the amended C5, at the counterexample tree. -/
theorem entering_position_root_witness :
    (⟨some 3, some (180, 7), (0, 5)⟩ : EnterRecord) ∈
      renderEntering
        (.mk "root" (some 1) 5 0
          [.mk "B" (some 2) 7 180 [.mk "E" (some 3) 9 360 [] []] []] [])
        [1, 2] ∧
    (⟨some 3, some (180, 7), (0, 5)⟩ : EnterRecord).initPos =
      ((HNode.mk "root" (some 1) 5 0
          [.mk "B" (some 2) 7 180 [.mk "E" (some 3) 9 360 [] []] []] []).y0,
        (HNode.mk "root" (some 1) 5 0
          [.mk "B" (some 2) 7 180 [.mk "E" (some 3) 9 360 [] []] []] []).x0) :=
  ⟨by decide,
    entering_position_root
      (.mk "root" (some 1) 5 0
        [.mk "B" (some 2) 7 180 [.mk "E" (some 3) 9 360 [] []] []] [])
      [1, 2] ⟨some 3, some (180, 7), (0, 5)⟩ (by decide)⟩

/-! ### C6: corrected — the fit-to-content scale is not clamped -/

/-- Counterexample to C6 as stated: for a 10×10 content bounding box in
an 800×500 viewport, `centerTree` derives scale
`0.9 / max(10/800, 10/500) = 45`, far outside the `[0.1, 3]`
`scaleExtent` range — the derived scale is applied through
`zoom.transform`, which does not consult `scaleExtent`. -/
theorem centerTree_scale_counterexample :
    ¬(scaleExtentMin ≤ centerTreeScale 10 10 800 500 ∧
      centerTreeScale 10 10 800 500 ≤ scaleExtentMax) := by
  have hmax : max ((10 : ℚ) / 800) (10 / 500) = 10 / 500 :=
    max_eq_right (by norm_num)
  have h45 : centerTreeScale 10 10 800 500 = 45 := by
    rw [centerTreeScale, hmax]
    norm_num
  rw [h45, scaleExtentMin, scaleExtentMax]
  norm_num

/-- C6 amended: the scale `centerTree` derives is
`0.9 / max(bw/w, bh/h)`, unclamped: it does fit the content bounding box
within 90% of the viewport in both axes, but it is not bounded by the
`[0.1, 3]` `scaleExtent` clamp (which d3 applies only to user
gestures, not to programmatic `zoom.transform`). -/
theorem centerTree_scale_fits (bw bh w h : ℚ)
    (hbw : 0 < bw) (hbh : 0 < bh) (hw : 0 < w) (hh : 0 < h) :
    centerTreeScale bw bh w h * bw ≤ 9 / 10 * w ∧
    centerTreeScale bw bh w h * bh ≤ 9 / 10 * h := by
  have h1 : bw / w ≤ max (bw / w) (bh / h) := le_max_left _ _
  have h2 : bh / h ≤ max (bw / w) (bh / h) := le_max_right _ _
  have hmpos : 0 < max (bw / w) (bh / h) :=
    lt_of_lt_of_le (div_pos hbw hw) h1
  have hbw2 : bw ≤ max (bw / w) (bh / h) * w := (div_le_iff hw).mp h1
  have hbh2 : bh ≤ max (bw / w) (bh / h) * h := (div_le_iff hh).mp h2
  constructor
  · rw [centerTreeScale, div_mul_eq_mul_div, div_le_iff hmpos]
    nlinarith [hbw2]
  · rw [centerTreeScale, div_mul_eq_mul_div, div_le_iff hmpos]
    nlinarith [hbh2]

/-- Witness for the amended C6 at a 160×90 box in an 800×500 viewport. -/
theorem centerTree_scale_fits_witness :
    ((0 : ℚ) < 160 ∧ (0 : ℚ) < 90 ∧ (0 : ℚ) < 800 ∧ (0 : ℚ) < 500) ∧
    (centerTreeScale 160 90 800 500 * 160 ≤ 9 / 10 * 800 ∧
      centerTreeScale 160 90 800 500 * 90 ≤ 9 / 10 * 500) :=
  ⟨⟨by norm_num, by norm_num, by norm_num, by norm_num⟩,
    centerTree_scale_fits 160 90 800 500
      (by norm_num) (by norm_num) (by norm_num) (by norm_num)⟩

/-! ### C9: malformed or absent payloads clear to the empty state -/

/-- C9: `updateTree(null)` (and `updateTree(undefined)`, identical in the
embedding) as well as `updateTree` of a payload lacking the `name` field
clear the visualization to the empty placeholder state — `root` becomes
`null` and the empty state is shown — from any prior state; `updateTree`
is a total function here, so no exception is thrown on these inputs. -/
theorem updateTree_malformed_clears (h : Int) (s : VizState) (cs : List TreeData) :
    updateTree h none s = { root := none, emptyShown := true } ∧
    updateTree h (some (TreeData.mk none cs)) s = { root := none, emptyShown := true } :=
  ⟨rfl, rfl⟩

/-! ### C10: an empty-string name is treated as "no data" -/

/-- C10: a payload whose `name` field is present but equal to `""` (the
falsy string) is treated exactly like an absent name: `updateTree` clears
to the empty state instead of building a tree, so a root named `""` can
never be displayed. -/
theorem updateTree_emptyName_clears (h : Int) (s : VizState) (cs : List TreeData) :
    updateTree h (some (TreeData.mk (some "") cs)) s =
      { root := none, emptyShown := true } :=
  rfl

/-! ### C1: the default collapse policy shows exactly two levels -/

/-- C1: for a payload whose root has at least one child that itself has
children, immediately after Build (`updateTree`) the visible node list is
exactly the root followed by the root's direct children — every root
child is recursively collapsed at every level (`fullyCollapsed`), the
root and its direct-child leaves stay visible, and no grandchild occurs
in the visible list. -/
theorem build_default_collapse (h : Int) (s : VizState) (td : TreeData)
    (hname : nameTruthy td.name = true)
    (hgrand : ∃ c ∈ td.children, c.children ≠ []) :
    (updateTree h (some td) s).root = some (buildRoot h td) ∧
    visibleList (buildRoot h td) = buildRoot h td :: (buildRoot h td).vis ∧
    (∀ c ∈ (buildRoot h td).vis, fullyCollapsed c = true) ∧
    (buildRoot h td).vis.map HNode.name = td.children.map (fun c => c.name.getD "") := by
  obtain ⟨n, cs⟩ := td
  have hfc : ∀ c ∈ (buildRoot h (.mk n cs)).vis, fullyCollapsed c = true := by
    rw [buildRoot_eq]
    simp only [HNode.vis_mk]
    intro c hc
    rcases List.mem_map.mp hc with ⟨c', hc', rfl⟩
    exact defaultCollapse_child_fullyCollapsed c'
      (allVisibleL_mem _ (hierarchyList_allVisible cs) c' hc')
  refine ⟨?_, ?_, hfc, ?_⟩
  · rw [updateTree]
    simp [hname]
  · rw [buildRoot_eq] at hfc ⊢
    rw [visibleList]
    simp only [HNode.vis_mk] at hfc ⊢
    rw [visibleListL_of_all_vis_empty _
      (fun t ht => fullyCollapsed_vis_empty t (hfc t ht))]
  · rw [buildRoot_eq]
    simp only [HNode.vis_mk, List.map_map, hierarchyList_map]
    refine List.map_congr_left (fun c hc => ?_)
    simp only [Function.comp_apply]
    rw [defaultCollapse_child_name, hierarchy_name]

/-- Witness for C1 at the §8 sample payload (`root → E1 → cat`). -/
theorem build_default_collapse_witness :
    (nameTruthy samplePayload.name = true ∧
      ∃ c ∈ samplePayload.children, c.children ≠ []) ∧
    ((updateTree 500 (some samplePayload) ⟨none, true⟩).root =
        some (buildRoot 500 samplePayload) ∧
      visibleList (buildRoot 500 samplePayload) =
        buildRoot 500 samplePayload :: (buildRoot 500 samplePayload).vis ∧
      (∀ c ∈ (buildRoot 500 samplePayload).vis, fullyCollapsed c = true) ∧
      (buildRoot 500 samplePayload).vis.map HNode.name =
        samplePayload.children.map (fun c => c.name.getD "")) :=
  ⟨⟨rfl, ⟨TreeData.mk (some "E1") [TreeData.mk (some "cat") []],
      by simp [samplePayload, TreeData.children],
      by simp [TreeData.children]⟩⟩,
    build_default_collapse 500 ⟨none, true⟩ samplePayload rfl
      ⟨TreeData.mk (some "E1") [TreeData.mk (some "cat") []],
        by simp [samplePayload, TreeData.children],
        by simp [TreeData.children]⟩⟩

end TreeViz
